import Mathlib

/-!
Verification of the ibis pandas-backend evaluation core.

This file gives a shallow embedding of the evaluation engine found in
`ibis/pandas/core.py` (scope memo store, time-context algebra, the recursive
evaluator `execute_until_in_scope`, `execute_and_reset`), of the default
`compute_time_context` implementations of the pandas and pyspark backends,
and of the CSV collaborator's `pre_execute` hook from `ibis/file/csv.py`,
together with theorems settling the specification's claims about them.

Timestamps are modelled as integers (`pd.Timestamp` is only compared, never
otherwise inspected, by the embedded code).  Concrete data values carried in
a scope are modelled as integers; the claims under study depend only on how
values move through the engine, not on their inner structure.
-/

namespace IbisSpec

/-- A time context: an ordered pair (begin, end) of comparable timestamps. -/
abbrev TC := Int × Int

/-- Relationship between two time contexts, as in class TimeContextRelation. -/
inductive TimeContextRelation where
  | SUBSET
  | SUPERSET
  | OVERLAP
  | NONOVERLAP
deriving DecidableEq, Repr

/-- Port of compare_timecontext: classify cur_context against old_context,
checking SUBSET, then SUPERSET, then NONOVERLAP, else OVERLAP. -/
def compare_timecontext (cur_context old_context : TC) : TimeContextRelation :=
  if old_context.1 ≤ cur_context.1 ∧ old_context.2 ≥ cur_context.2 then
    .SUBSET
  else if old_context.1 ≥ cur_context.1 ∧ old_context.2 ≤ cur_context.2 then
    .SUPERSET
  else if old_context.2 < cur_context.1 ∨ cur_context.2 < old_context.1 then
    .NONOVERLAP
  else
    .OVERLAP

/-- A bound inside a raw (not yet canonicalized) time context: either a value
of the supported timestamp type (pd.Timestamp, modelled as Int) or a value of
some other type. -/
inductive PyBound where
  | ts (t : Int)
  | other
deriving DecidableEq, Repr

/-- A raw time context as passed by a caller: a sequence of bounds (tuple
unpacking succeeds exactly when it has two elements) or a non-sequence value
(unpacking raises immediately). -/
inductive RawTimeContext where
  | seq (xs : List PyBound)
  | atom
deriving DecidableEq, Repr

/-- The distinct IbisError raise sites of canonicalize_context. -/
inductive ContextError where
  | notAPair
  | beginNotTimestamp
  | endNotTimestamp
  | beginAfterEnd
deriving DecidableEq, Repr

/-- Port of canonicalize_context: unpack (begin, end), require both bounds to
be of the supported timestamp type, require begin ≤ end. -/
def canonicalize_context : RawTimeContext → Except ContextError TC
  | .atom => .error .notAPair
  | .seq [a, b] =>
    match a with
    | .other => .error .beginNotTimestamp
    | .ts b0 =>
      match b with
      | .other => .error .endNotTimestamp
      | .ts e0 => if b0 > e0 then .error .beginAfterEnd else .ok (b0, e0)
  | .seq _ => .error .notAPair

/-- Kind of an operator node, as far as the engine inspects it: the two
range-sensitive leaf classes singled out by get_scope (ops.TableColumn and
ops.TableNode) and everything else, tagged to keep distinct operators apart. -/
inductive NodeKind where
  | tableColumn
  | tableNode
  | generic (tag : Nat)
deriving DecidableEq

/-- An expression-tree value as it appears in `op.inputs`: a Literal node, a
general operator node with its ordered inputs, a raw scalar (computable but
without an `op`), or a raw non-expression sequence (a `list`, which
is_computable_input rejects).  Node identity is structural equality, matching
the dict keying of scope by op. -/
inductive Expr where
  | lit (id : Nat) (v : Int)
  | node (id : Nat) (kind : NodeKind) (inputs : List Expr)
  | rawScalar (v : Int)
  | rawList

/-- Boolean structural equality on expressions (the nested inductive keeps
Lean from deriving it). -/
def Expr.beq : Expr → Expr → Bool
  | .lit i v, .lit j w => i == j && v == w
  | .node i k ins, .node j l ins2 => i == j && k == l && go ins ins2
  | .rawScalar v, .rawScalar w => v == w
  | .rawList, .rawList => true
  | _, _ => false
where go : List Expr → List Expr → Bool
  | [], [] => true
  | x :: xs, y :: ys => Expr.beq x y && go xs ys
  | _, _ => false

instance : BEq Expr := ⟨Expr.beq⟩

mutual

theorem Expr.beq_refl : ∀ e : Expr, Expr.beq e e = true
  | .lit i v => by simp [Expr.beq]
  | .node i k ins => by simp [Expr.beq, Expr.beq_go_refl ins]
  | .rawScalar v => by simp [Expr.beq]
  | .rawList => by simp [Expr.beq]

theorem Expr.beq_go_refl : ∀ l : List Expr, Expr.beq.go l l = true
  | [] => by simp [Expr.beq.go]
  | x :: xs => by simp [Expr.beq.go, Expr.beq_refl x, Expr.beq_go_refl xs]

end

mutual

theorem Expr.eq_of_beq : ∀ a b : Expr, Expr.beq a b = true → a = b
  | .lit i v, .lit j w, h => by
    simp [Expr.beq] at h; simp [h.1, h.2]
  | .node i k ins, .node j l ins2, h => by
    simp [Expr.beq] at h
    obtain ⟨⟨h1, h2⟩, h3⟩ := h
    simp [h1, h2, Expr.eq_of_beq_go ins ins2 h3]
  | .rawScalar v, .rawScalar w, h => by
    simp [Expr.beq] at h; simp [h]
  | .rawList, .rawList, _ => rfl
  | .lit .., .node .., h => by simp [Expr.beq] at h
  | .lit .., .rawScalar _, h => by simp [Expr.beq] at h
  | .lit .., .rawList, h => by simp [Expr.beq] at h
  | .node .., .lit .., h => by simp [Expr.beq] at h
  | .node .., .rawScalar _, h => by simp [Expr.beq] at h
  | .node .., .rawList, h => by simp [Expr.beq] at h
  | .rawScalar _, .lit .., h => by simp [Expr.beq] at h
  | .rawScalar _, .node .., h => by simp [Expr.beq] at h
  | .rawScalar _, .rawList, h => by simp [Expr.beq] at h
  | .rawList, .lit .., h => by simp [Expr.beq] at h
  | .rawList, .node .., h => by simp [Expr.beq] at h
  | .rawList, .rawScalar _, h => by simp [Expr.beq] at h

theorem Expr.eq_of_beq_go : ∀ a b : List Expr, Expr.beq.go a b = true → a = b
  | [], [], _ => rfl
  | x :: xs, y :: ys, h => by
    simp [Expr.beq.go] at h
    simp [Expr.eq_of_beq x y h.1, Expr.eq_of_beq_go xs ys h.2]
  | [], _ :: _, h => by simp [Expr.beq.go] at h
  | _ :: _, [], h => by simp [Expr.beq.go] at h

end

instance : DecidableEq Expr := fun a b =>
  decidable_of_iff (Expr.beq a b = true)
    ⟨Expr.eq_of_beq a b, fun h => h ▸ Expr.beq_refl a⟩

/-- Whether a value would pass `hasattr(arg, 'op')`: literal and operator
nodes wrap an op, raw scalars and raw lists do not. -/
def Expr.hasOp : Expr → Bool
  | .lit .. => true
  | .node .. => true
  | .rawScalar _ => false
  | .rawList => false

/-- The ordered inputs of a node (`op.inputs`); non-node values have none. -/
def Expr.inputs : Expr → List Expr
  | .node _ _ ins => ins
  | _ => []

/-- Port of is_computable_input: expressions, scalars and the other
registered simple types are computable, raw non-expression sequences are not. -/
def is_computable_input : Expr → Bool
  | .rawList => false
  | _ => true

/-- The computable inputs of a node, in source input order
(`[arg for arg in op.inputs if is_computable_input(arg)]`). -/
def computable_inputs (e : Expr) : List Expr :=
  e.inputs.filter is_computable_input

/-- The payload of a raw (non-op) computable input when it is wrapped
directly as a scope value (`scope_item(arg, arg, timecontext)`).  Only
raw scalars are computable without an op, so only they reach this. -/
def raw_value : Expr → Int
  | .rawScalar v => v
  | _ => 0

/-- Whether get_scope treats this op as a range-sensitive leaf
(`isinstance(op, ops.TableColumn) or isinstance(op, ops.TableNode)`). -/
def is_range_sensitive_leaf : Expr → Bool
  | .node _ .tableColumn _ => true
  | .node _ .tableNode _ => true
  | _ => false

/-- One scope entry: `{'value': result, 'timecontext': timecontext}`. -/
structure Entry where
  value : Int
  timecontext : Option TC
deriving DecidableEq

/-- A scope: a finite map from ops to entries, modelled as an association
list in which the first matching key wins on lookup. -/
abbrev Scope := List (Expr × Entry)

/-- Dictionary lookup of an op in a scope (`op in scope` / `scope[op]`). -/
def Scope.find (s : Scope) (op : Expr) : Option Entry :=
  (List.find? (fun p => p.1 == op) s).map (fun p => p.2)

/-- The value stored for an op, when present (`scope[op]['value']`). -/
def Scope.findValue (s : Scope) (op : Expr) : Option Int :=
  (Scope.find s op).map (fun e => e.value)

/-- Port of toolz.merge specialized to two scopes: a right-biased union in
which, for any key present in both, the later argument's entry wins. -/
def Scope.merge (a b : Scope) : Scope := b ++ a

/-- Port of scope_item: the one-entry scope `{op: {'value': result,
'timecontext': timecontext}}`. -/
def scope_item (op : Expr) (result : Int) (timecontext : Option TC) : Scope :=
  [(op, ⟨result, timecontext⟩)]

/-- Errors an evaluation can surface.  `typeErr` stands for the TypeError
Python would raise when compare_timecontext unpacks a stored timecontext of
None; `outOfFuel` marks exhaustion of the explicit recursion budget of the
embedding (the source recursion has no such budget). -/
inductive EvalError where
  | outOfFuel
  | notAnExpr
  | arity
  | unbound
  | typeErr
deriving DecidableEq

/-- Port of get_scope: plain identity lookup when timecontext is None;
with a timecontext, only range-sensitive leaves are honored, and only when
the requested context is a SUBSET of the cached one.  Looking a leaf up
under a timecontext when the entry stored none would make the source crash
in compare_timecontext, modelled by the `typeErr` error. -/
def get_scope (s : Scope) (op : Expr) (timecontext : Option TC := none) :
    Except EvalError (Option Int) :=
  match Scope.find s op with
  | none => .ok none
  | some entry =>
    match timecontext with
    | none => .ok (some entry.value)
    | some t =>
      if is_range_sensitive_leaf op then
        match entry.timecontext with
        | none => .error .typeErr
        | some old =>
          if compare_timecontext t old = .SUBSET then .ok (some entry.value)
          else .ok none
      else .ok none

/-- The backend hook families the evaluator dispatches into, abstracted as
plain functions: execute_literal, execute_node, pre_execute, post_execute and
the compute_time_context dispatcher (which also receives num_args). -/
structure Hooks where
  el : Int → Int
  en : Expr → List (Option Int) → Int
  pe : Expr → Scope → Option TC → Scope
  post : Expr → Int → Option TC → Int
  ctc : Expr → Nat → Option TC → List (Option TC)

/-- One recorded invocation of execute_node: the op it ran for, the realized
argument data handed to it, the merged scope the data was gathered from, and
the per-input time contexts compute_time_context had assigned. -/
structure TraceEvent where
  op : Expr
  data : List (Option Int)
  mergedScope : Scope
  argTCs : List (Option TC)
deriving DecidableEq

/-- The execute_node invocations of one evaluation, in invocation order. -/
abbrev Trace := List TraceEvent

/-- Port of the data-gathering step of execute_until_in_scope:
`[get_scope(new_scope, arg.op()) if hasattr(arg, 'op') else arg
  for arg in computable_args]`.
The lookup passes no timecontext, so it is get_scope's plain identity
branch, extracted here as `Scope.findValue`. -/
def gather_data (merged : Scope) (computable_args : List Expr) :
    List (Option Int) :=
  computable_args.map fun arg =>
    if arg.hasOp then Scope.findValue merged arg else some (raw_value arg)

/-- Port of one element of the sibling list comprehension of
execute_until_in_scope: recurse when the input wraps an op, otherwise wrap
the raw input directly as a scope entry under its assigned context
(`scope_item(arg, arg, timecontext)`). -/
def eval_sibling (r : Expr → Scope → Option TC → Except EvalError (Scope × Trace))
    (arg : Expr) (timecontext : Option TC) (s : Scope) :
    Except EvalError (Scope × Trace) :=
  if arg.hasOp then r arg s timecontext
  else .ok (scope_item arg (raw_value arg) timecontext, [])

/-- Port of the sibling list comprehension of execute_until_in_scope:
`[execute_until_in_scope(arg, new_scope, timecontext=timecontext, ...)
  if hasattr(arg, 'op') else scope_item(arg, arg, timecontext)
  for (arg, timecontext) in zip(computable_args, arg_timecontexts)]`,
parameterized by the recursive call `r`.  Zipping truncates at the shorter
list; every element is evaluated against the same scope `s`, and the
resulting scopes and traces are collected in left-to-right input order. -/
def execute_arg_scopes
    (r : Expr → Scope → Option TC → Except EvalError (Scope × Trace)) :
    List Expr → List (Option TC) → Scope →
    Except EvalError (List Scope × Trace)
  | [], _, _ => .ok ([], [])
  | _ :: _, [], _ => .ok ([], [])
  | arg :: args, t :: ts, s =>
    match eval_sibling r arg t s with
    | .error err => .error err
    | .ok (s1, tr1) =>
      match execute_arg_scopes r args ts s with
      | .error err => .error err
      | .ok (ss, trs) => .ok (s1 :: ss, tr1 ++ trs)

/-- Port of execute_until_in_scope, with an explicit recursion budget
(`fuel`) in place of Python's unbounded recursion.  The steps mirror the
source in order: literal fast path; memo check; computable-input filtering;
compute_time_context (only when a timecontext is set); pre_execute and merge;
memo re-check; arity check; sibling evaluation; dead unbound-data guard;
merge of the sibling scopes; data gathering without a timecontext;
execute_node; post_execute; and the return of the single-item scope for the
op.  Raw non-op values never reach the function in the source (it is always
called on expressions), modelled by the `notAnExpr` error. -/
def execute_until_in_scope (h : Hooks) :
    Nat → Expr → Scope → Option TC → Except EvalError (Scope × Trace)
  | 0, _, _, _ => .error .outOfFuel
  | _ + 1, .rawScalar _, _, _ => .error .notAnExpr
  | _ + 1, .rawList, _, _ => .error .notAnExpr
  | _ + 1, .lit i v, _, timecontext =>
    .ok (scope_item (.lit i v) (h.el v) timecontext, [])
  | fuel + 1, .node i k ins, scope, timecontext =>
    match get_scope scope (.node i k ins) timecontext with
    | .error err => .error err
    | .ok (some _) => .ok (scope, [])
    | .ok none =>
      let op : Expr := .node i k ins
      let computable_args := computable_inputs op
      let arg_timecontexts :=
        match timecontext with
        | some _ => h.ctc op computable_args.length timecontext
        | none => List.replicate computable_args.length none
      let new_scope := Scope.merge scope (h.pe op scope timecontext)
      match get_scope new_scope op timecontext with
      | .error err => .error err
      | .ok (some _) => .ok (new_scope, [])
      | .ok none =>
        if arg_timecontexts.length ≠ computable_args.length then .error .arity
        else
          match
            execute_arg_scopes (fun a s t => execute_until_in_scope h fuel a s t)
              computable_args arg_timecontexts new_scope
          with
          | .error err => .error err
          | .ok (scopes, traces) =>
            if scopes.isEmpty && !computable_args.isEmpty then .error .unbound
            else
              let merged := scopes.foldl Scope.merge new_scope
              let data := gather_data merged computable_args
              let result := h.en op data
              let computed := h.post op result timecontext
              .ok (scope_item op computed timecontext,
                   traces ++ [⟨op, data, merged, arg_timecontexts⟩])

/-- Port of the pandas-backend compute_time_context_default: the parent's
timecontext, unchanged, once per computable input
(`[timecontext for arg in node.inputs if is_computable_input(arg)]`). -/
def compute_time_context_default (node : Expr) (timecontext : Option TC) :
    List (Option TC) :=
  (node.inputs.filter is_computable_input).map fun _ => timecontext

/-- Port of the pyspark-backend compute_time_context_default: the parent's
timecontext, unchanged, once per input, computable or not
(`[timecontext for arg in node.inputs]`). -/
def pyspark_compute_time_context_default (node : Expr)
    (timecontext : Option TC) : List (Option TC) :=
  node.inputs.map fun _ => timecontext

/-- A concrete hook assignment used to evaluate the embedding on explicit
inputs: literals pass through, execute_node returns 0, pre_execute
contributes nothing, post_execute is the identity on the computed value, and
compute_time_context is the registered pandas default. -/
def defaultHooks : Hooks where
  el := fun v => v
  en := fun _ _ => 0
  pe := fun _ _ _ => []
  post := fun _ v _ => v
  ctc := fun op _ timecontext => compute_time_context_default op timecontext

deriving instance DecidableEq for Except

/-- A successful get_scope lookup returns exactly the value stored in the
entry for the op (`scope[op]['value']`). -/
theorem findValue_of_get_scope {s : Scope} {op : Expr} {tc : Option TC}
    {v : Int} (h : get_scope s op tc = .ok (some v)) :
    Scope.findValue s op = some v := by
  cases hf : Scope.find s op with
  | none => simp [get_scope, hf] at h
  | some entry =>
    cases tc with
    | none =>
      simp [get_scope, hf] at h
      simp [Scope.findValue, hf, h]
    | some t =>
      by_cases hleaf : is_range_sensitive_leaf op
      · cases hold : entry.timecontext with
        | none => simp [get_scope, hf, hleaf, hold] at h
        | some old =>
          by_cases hcmp : compare_timecontext t old = .SUBSET
          · simp [get_scope, hf, hleaf, hold, hcmp] at h
            simp [Scope.findValue, hf, h]
          · simp [get_scope, hf, hleaf, hold, hcmp] at h
      · simp [get_scope, hf, hleaf] at h

/-- C1: a memo hit at the start of evaluation of a non-literal node, under
the requested time context and the get_scope lookup rule, makes
execute_until_in_scope return the scope unchanged with an empty trace of
execute_node invocations (the whole subtree is skipped, including the node's
inputs), and the value the caller extracts from the returned scope for the
node is exactly the cached one. -/
theorem C1_memo_hit_skips_subtree (h : Hooks) (fuel : Nat) (i : Nat)
    (k : NodeKind) (ins : List Expr) (scope : Scope) (tc : Option TC)
    (v : Int) (hhit : get_scope scope (.node i k ins) tc = .ok (some v)) :
    execute_until_in_scope h (fuel + 1) (.node i k ins) scope tc =
      .ok (scope, []) ∧
    Scope.findValue scope (.node i k ins) = some v := by
  refine ⟨?_, findValue_of_get_scope hhit⟩
  simp only [execute_until_in_scope, hhit]

/-- C1 witness: a table-column node cached under range (0, 10) and looked up
under the SUBSET range (2, 3) is returned from the memo untouched. -/
theorem C1_witness :
    execute_until_in_scope defaultHooks 1 (.node 5 .tableColumn [])
      [(.node 5 .tableColumn [], ⟨7, some (0, 10)⟩)] (some (2, 3)) =
      .ok ([(.node 5 .tableColumn [], ⟨7, some (0, 10)⟩)], []) ∧
    Scope.findValue [(.node 5 .tableColumn [], ⟨7, some (0, 10)⟩)]
      (.node 5 .tableColumn []) = some 7 :=
  C1_memo_hit_skips_subtree defaultHooks 0 5 .tableColumn []
    [(.node 5 .tableColumn [], ⟨7, some (0, 10)⟩)] (some (2, 3)) 7 (by decide)

/-- C2: the get_scope lookup rule.  Without a timecontext the lookup returns
the stored value whenever the op has an entry, ignoring the stored range; an
absent op always misses; with a timecontext a value is returned only for a
range-sensitive leaf whose stored range makes the requested one a SUBSET,
and that value is the stored one; a leaf whose stored relation is anything
other than SUBSET (SUPERSET included) misses; any non-leaf op kind misses
whenever a timecontext is requested. -/
theorem C2_get_scope_lookup_rule :
    (∀ (s : Scope) (op : Expr) (e : Entry),
       Scope.find s op = some e → get_scope s op none = .ok (some e.value)) ∧
    (∀ (s : Scope) (op : Expr) (tc : Option TC),
       Scope.find s op = none → get_scope s op tc = .ok none) ∧
    (∀ (s : Scope) (op : Expr) (t : TC) (v : Int),
       get_scope s op (some t) = .ok (some v) →
       is_range_sensitive_leaf op = true ∧
       ∃ e old, Scope.find s op = some e ∧ e.timecontext = some old ∧
         compare_timecontext t old = .SUBSET ∧ v = e.value) ∧
    (∀ (s : Scope) (op : Expr) (t : TC) (e : Entry) (old : TC),
       Scope.find s op = some e → e.timecontext = some old →
       compare_timecontext t old ≠ .SUBSET →
       get_scope s op (some t) = .ok none) ∧
    (∀ (s : Scope) (op : Expr) (t : TC),
       is_range_sensitive_leaf op = false →
       get_scope s op (some t) = .ok none) := by
  refine ⟨?_, ?_, ?_, ?_, ?_⟩
  · intro s op e hf
    simp [get_scope, hf]
  · intro s op tc hf
    simp [get_scope, hf]
  · intro s op t v h
    cases hf : Scope.find s op with
    | none => simp [get_scope, hf] at h
    | some e =>
      by_cases hleaf : is_range_sensitive_leaf op
      · cases hold : e.timecontext with
        | none => simp [get_scope, hf, hleaf, hold] at h
        | some old =>
          by_cases hcmp : compare_timecontext t old = .SUBSET
          · simp [get_scope, hf, hleaf, hold, hcmp] at h
            exact ⟨hleaf, e, old, rfl, hold, hcmp, h.symm⟩
          · simp [get_scope, hf, hleaf, hold, hcmp] at h
      · simp [get_scope, hf, hleaf] at h
  · intro s op t e old hf hold hcmp
    by_cases hleaf : is_range_sensitive_leaf op <;>
      simp [get_scope, hf, hold, hleaf, hcmp]
  · intro s op t hleaf
    cases hf : Scope.find s op <;> simp [get_scope, hf, hleaf]

/-- get_scope surfaces at most a TypeError-style failure; in particular it
never produces the unbound-data error. -/
theorem get_scope_ne_unbound (s : Scope) (op : Expr) (tc : Option TC) :
    get_scope s op tc ≠ .error .unbound := by
  cases hf : Scope.find s op with
  | none => simp [get_scope, hf]
  | some e =>
    cases tc with
    | none => simp [get_scope, hf]
    | some t =>
      by_cases hleaf : is_range_sensitive_leaf op
      · cases hold : e.timecontext with
        | none => simp [get_scope, hf, hleaf, hold]
        | some old =>
          by_cases hcmp : compare_timecontext t old = .SUBSET <;>
            simp [get_scope, hf, hleaf, hold, hcmp]
      · simp [get_scope, hf, hleaf]

/-- The sibling comprehension yields exactly one scope per zipped
(input, context) pair: its output list's length is the length of the zip. -/
theorem execute_arg_scopes_length (r : Expr → Scope → Option TC →
      Except EvalError (Scope × Trace)) :
    ∀ (args : List Expr) (tcs : List (Option TC)) (s : Scope)
      (ss : List Scope) (trs : Trace),
      execute_arg_scopes r args tcs s = .ok (ss, trs) →
      ss.length = min args.length tcs.length := by
  intro args
  induction args with
  | nil =>
    intro tcs s ss trs hrun
    simp [execute_arg_scopes] at hrun
    simp [hrun.1]
  | cons a as ih =>
    intro tcs s ss trs hrun
    cases tcs with
    | nil =>
      simp [execute_arg_scopes] at hrun
      simp [hrun.1]
    | cons t ts =>
      unfold execute_arg_scopes at hrun
      cases he : eval_sibling r a t s with
      | error err => rw [he] at hrun; exact absurd hrun (by simp)
      | ok pr =>
        obtain ⟨s1, tr1⟩ := pr
        rw [he] at hrun
        cases hrest : execute_arg_scopes r as ts s with
        | error err => rw [hrest] at hrun; exact absurd hrun (by simp)
        | ok pr2 =>
          obtain ⟨ss2, trs2⟩ := pr2
          rw [hrest] at hrun
          simp only [Except.ok.injEq, Prod.mk.injEq] at hrun
          have hlen := ih ts s ss2 trs2 hrest
          rw [← hrun.1]
          simp [hlen]
          omega

/-- A sibling step fails with the unbound-data error only if the recursive
call it wraps does. -/
theorem eval_sibling_ne_unbound {r : Expr → Scope → Option TC →
      Except EvalError (Scope × Trace)}
    (hr : ∀ a s t, r a s t ≠ .error .unbound)
    (arg : Expr) (t : Option TC) (s : Scope) :
    eval_sibling r arg t s ≠ .error .unbound := by
  unfold eval_sibling
  split
  · exact hr arg s t
  · simp

/-- The sibling comprehension fails with the unbound-data error only if one
of its recursive calls does. -/
theorem execute_arg_scopes_ne_unbound {r : Expr → Scope → Option TC →
      Except EvalError (Scope × Trace)}
    (hr : ∀ a s t, r a s t ≠ .error .unbound) :
    ∀ (args : List Expr) (tcs : List (Option TC)) (s : Scope),
      execute_arg_scopes r args tcs s ≠ .error .unbound := by
  intro args
  induction args with
  | nil => intro tcs s; simp [execute_arg_scopes]
  | cons a as ih =>
    intro tcs s
    cases tcs with
    | nil => simp [execute_arg_scopes]
    | cons t ts =>
      unfold execute_arg_scopes
      cases he : eval_sibling r a t s with
      | error err =>
        intro hcontra
        simp only [Except.error.injEq] at hcontra
        rw [hcontra] at he
        exact eval_sibling_ne_unbound hr a t s he
      | ok pr =>
        obtain ⟨s1, tr1⟩ := pr
        cases hrest : execute_arg_scopes r as ts s with
        | error err =>
          intro hcontra
          simp only [Except.error.injEq] at hcontra
          rw [hcontra] at hrest
          exact ih ts s hrest
        | ok pr2 => simp

/-- Any trace event coming out of a sibling step comes out of the recursive
call it wraps: the direct scope_item wrap of a raw input records nothing. -/
theorem eval_sibling_events {P : TraceEvent → Prop}
    {r : Expr → Scope → Option TC → Except EvalError (Scope × Trace)}
    (hr : ∀ a s t s' tr, r a s t = .ok (s', tr) → ∀ ev ∈ tr, P ev)
    (arg : Expr) (t : Option TC) (s : Scope) (s' : Scope) (tr : Trace)
    (hrun : eval_sibling r arg t s = .ok (s', tr)) :
    ∀ ev ∈ tr, P ev := by
  unfold eval_sibling at hrun
  split at hrun
  · exact hr arg s t s' tr hrun
  · simp only [Except.ok.injEq, Prod.mk.injEq] at hrun
    rw [← hrun.2]
    intro ev hev
    exact absurd hev (by simp)

/-- Any trace event of the sibling comprehension is an event of one of the
recursive calls, so a property of all recursive events covers it. -/
theorem execute_arg_scopes_events {P : TraceEvent → Prop}
    {r : Expr → Scope → Option TC → Except EvalError (Scope × Trace)}
    (hr : ∀ a s t s' tr, r a s t = .ok (s', tr) → ∀ ev ∈ tr, P ev) :
    ∀ (args : List Expr) (tcs : List (Option TC)) (s : Scope)
      (ss : List Scope) (trs : Trace),
      execute_arg_scopes r args tcs s = .ok (ss, trs) → ∀ ev ∈ trs, P ev := by
  intro args
  induction args with
  | nil =>
    intro tcs s ss trs hrun
    simp [execute_arg_scopes] at hrun
    rw [hrun.2]
    intro ev hev
    exact absurd hev (by simp)
  | cons a as ih =>
    intro tcs s ss trs hrun
    cases tcs with
    | nil =>
      simp [execute_arg_scopes] at hrun
      rw [hrun.2]
      intro ev hev
      exact absurd hev (by simp)
    | cons t ts =>
      unfold execute_arg_scopes at hrun
      cases he : eval_sibling r a t s with
      | error err => rw [he] at hrun; exact absurd hrun (by simp)
      | ok pr =>
        obtain ⟨s1, tr1⟩ := pr
        rw [he] at hrun
        cases hrest : execute_arg_scopes r as ts s with
        | error err => rw [hrest] at hrun; exact absurd hrun (by simp)
        | ok pr2 =>
          obtain ⟨ss2, trs2⟩ := pr2
          rw [hrest] at hrun
          simp only [Except.ok.injEq, Prod.mk.injEq] at hrun
          rw [← hrun.2]
          intro ev hev
          rcases List.mem_append.mp hev with h1 | h2
          · exact eval_sibling_events hr a t s s1 tr1 he ev h1
          · exact ih ts s ss2 trs2 hrest ev h2

/-- C3: compare_timecontext classifies a pair of ranges as SUBSET exactly
when the old range contains the current one; as SUPERSET, NONOVERLAP and
OVERLAP exactly per the stated conditions taken in precedence order; the
four outcomes are exhaustive (and mutually exclusive, the function being
single-valued into distinct constructors); and any range compared with
itself is a SUBSET. -/
theorem C3_compare_timecontext_classification :
    (∀ cur old : TC,
      (compare_timecontext cur old = .SUBSET ↔
         old.1 ≤ cur.1 ∧ old.2 ≥ cur.2) ∧
      (compare_timecontext cur old = .SUPERSET ↔
         ¬(old.1 ≤ cur.1 ∧ old.2 ≥ cur.2) ∧
         (old.1 ≥ cur.1 ∧ old.2 ≤ cur.2)) ∧
      (compare_timecontext cur old = .NONOVERLAP ↔
         ¬(old.1 ≤ cur.1 ∧ old.2 ≥ cur.2) ∧
         ¬(old.1 ≥ cur.1 ∧ old.2 ≤ cur.2) ∧
         (old.2 < cur.1 ∨ cur.2 < old.1)) ∧
      (compare_timecontext cur old = .OVERLAP ↔
         ¬(old.1 ≤ cur.1 ∧ old.2 ≥ cur.2) ∧
         ¬(old.1 ≥ cur.1 ∧ old.2 ≤ cur.2) ∧
         ¬(old.2 < cur.1 ∨ cur.2 < old.1))) ∧
    (∀ cur old : TC,
      compare_timecontext cur old = .SUBSET ∨
      compare_timecontext cur old = .SUPERSET ∨
      compare_timecontext cur old = .OVERLAP ∨
      compare_timecontext cur old = .NONOVERLAP) ∧
    (∀ x : TC, compare_timecontext x x = .SUBSET) := by
  refine ⟨?_, ?_, ?_⟩
  · intro cur old
    unfold compare_timecontext
    split_ifs with h1 h2 h3 <;> simp_all
  · intro cur old
    unfold compare_timecontext
    split_ifs <;> simp
  · intro x
    simp [compare_timecontext]

/-- C8: canonicalize_context succeeds exactly on two-element sequences of
timestamp-typed bounds with begin ≤ end, returning that (begin, end) pair;
it fails on a non-sequence, on a sequence whose length is not two, on a
non-timestamp bound (begin checked first), and on a reversed pair. -/
theorem C8_canonicalize_context_spec :
    (∀ b e : Int, b ≤ e →
       canonicalize_context (.seq [.ts b, .ts e]) = .ok (b, e)) ∧
    (∀ (t : RawTimeContext) (b e : Int),
       canonicalize_context t = .ok (b, e) →
       b ≤ e ∧ t = .seq [.ts b, .ts e]) ∧
    (canonicalize_context .atom = .error .notAPair) ∧
    (∀ xs : List PyBound, xs.length ≠ 2 →
       canonicalize_context (.seq xs) = .error .notAPair) ∧
    (∀ x : PyBound,
       canonicalize_context (.seq [.other, x]) = .error .beginNotTimestamp) ∧
    (∀ b : Int,
       canonicalize_context (.seq [.ts b, .other]) = .error .endNotTimestamp) ∧
    (∀ b e : Int, b > e →
       canonicalize_context (.seq [.ts b, .ts e]) = .error .beginAfterEnd) := by
  refine ⟨?_, ?_, rfl, ?_, ?_, ?_, ?_⟩
  · intro b e hbe
    simp [canonicalize_context, not_lt.mpr hbe]
  · intro t b e h
    match t with
    | .atom => exact absurd h (by simp [canonicalize_context])
    | .seq [] => exact absurd h (by simp [canonicalize_context])
    | .seq [_] => exact absurd h (by simp [canonicalize_context])
    | .seq (_ :: _ :: _ :: _) => exact absurd h (by simp [canonicalize_context])
    | .seq [.other, _] => exact absurd h (by simp [canonicalize_context])
    | .seq [.ts _, .other] => exact absurd h (by simp [canonicalize_context])
    | .seq [.ts b0, .ts e0] =>
      by_cases hlt : b0 > e0
      · simp [canonicalize_context, hlt] at h
      · simp [canonicalize_context, hlt] at h
        obtain ⟨hb, he⟩ := h
        subst hb; subst he
        exact ⟨not_lt.mp hlt, rfl⟩
  · intro xs hlen
    match xs with
    | [] => rfl
    | [_] => rfl
    | [_, _] => exact absurd rfl hlen
    | _ :: _ :: _ :: _ => rfl
  · intro x; rfl
  · intro b; rfl
  · intro b e hbe
    simp [canonicalize_context, hbe]

/-- The execute_node ops of an evaluation outcome, in invocation order. -/
def trace_ops (r : Except EvalError (Scope × Trace)) : List Expr :=
  match r with
  | .ok (_, tr) => tr.map fun ev => ev.op
  | .error _ => []

/-- A generic child node with no inputs, used as the single input of
`c4P`. -/
def c4C : Expr := .node 1 (.generic 1) []

/-- A generic parent node whose only computable input is the generic node
`c4C`. -/
def c4P : Expr := .node 0 (.generic 0) [c4C]

/-- C4 counterexample: evaluating `c4P` under range (0, 10) assigns the
child `c4C` its own range (0, 10) (recorded in argTCs), yet execute_node for
`c4P` receives the realized datum `some 0` for that child, while the
get_scope lookup of `c4C` in the merged scope under its own assigned range
misses (`c4C` is not a range-sensitive leaf).  The realized value is
therefore not obtained by a lookup under the input's own range. -/
theorem C4_counterexample :
    execute_until_in_scope defaultHooks 3 c4P [] (some (0, 10)) =
      .ok (scope_item c4P 0 (some (0, 10)),
           [⟨c4C, [], [], []⟩,
            ⟨c4P, [some 0], [(c4C, ⟨0, some (0, 10)⟩)], [some (0, 10)]⟩]) ∧
    get_scope [(c4C, ⟨0, some (0, 10)⟩)] c4C (some (0, 10)) = .ok none ∧
    gather_data [(c4C, ⟨0, some (0, 10)⟩)] (computable_inputs c4P) =
      [some 0] := by
  refine ⟨by decide, by decide, by decide⟩

/-- C4 (amended): every execute_node invocation receives, for each
computable input, the value gathered from the merged scope by a plain
identity lookup with no timecontext at all (raw non-op inputs pass through
directly); the lookup is under neither the parent's nor the input's own
assigned range. -/
theorem C4_data_gathered_without_timecontext (fuel : Nat) (h : Hooks)
    (e : Expr) (scope : Scope) (tc : Option TC) (s' : Scope) (tr : Trace)
    (hrun : execute_until_in_scope h fuel e scope tc = .ok (s', tr)) :
    ∀ ev ∈ tr, ev.data = gather_data ev.mergedScope (computable_inputs ev.op) := by
  induction fuel generalizing e scope tc s' tr with
  | zero => simp [execute_until_in_scope] at hrun
  | succ fuel ih =>
    match e with
    | .rawScalar v => simp [execute_until_in_scope] at hrun
    | .rawList => simp [execute_until_in_scope] at hrun
    | .lit i v =>
      simp [execute_until_in_scope] at hrun
      obtain ⟨h1, h2⟩ := hrun
      subst h2
      intro ev hev
      exact absurd hev (by simp)
    | .node i k ins =>
      simp only [execute_until_in_scope] at hrun
      split at hrun
      · exact absurd hrun (by simp)
      · simp only [Except.ok.injEq, Prod.mk.injEq] at hrun
        obtain ⟨h1, h2⟩ := hrun
        subst h2
        intro ev hev
        exact absurd hev (by simp)
      · split at hrun
        · exact absurd hrun (by simp)
        · simp only [Except.ok.injEq, Prod.mk.injEq] at hrun
          obtain ⟨h1, h2⟩ := hrun
          subst h2
          intro ev hev
          exact absurd hev (by simp)
        · split at hrun
          · exact absurd hrun (by simp)
          · split at hrun
            · exact absurd hrun (by simp)
            · rename_i scopes traces heqargs
              split at hrun
              · exact absurd hrun (by simp)
              · simp only [Except.ok.injEq, Prod.mk.injEq] at hrun
                obtain ⟨h1, h2⟩ := hrun
                subst h2
                intro ev hev
                rcases List.mem_append.mp hev with hmem | hmem
                · exact execute_arg_scopes_events
                    (fun a s t s'' tr' hr' => ih a s t s'' tr' hr')
                    _ _ _ scopes traces heqargs ev hmem
                · simp only [List.mem_singleton] at hmem
                  subst hmem
                  rfl

/-- C4 witness: in the concrete run of `C4_counterexample`, the execute_node
invocation for `c4P` received exactly the plain no-timecontext gather of its
computable inputs from the merged scope. -/
theorem C4_witness :
    (⟨c4P, [some 0], [(c4C, ⟨0, some (0, 10)⟩)], [some (0, 10)]⟩ :
        TraceEvent).data =
      gather_data [(c4C, ⟨0, some (0, 10)⟩)] (computable_inputs c4P) :=
  C4_data_gathered_without_timecontext 3 defaultHooks c4P [] (some (0, 10))
    (scope_item c4P 0 (some (0, 10)))
    [⟨c4C, [], [], []⟩,
     ⟨c4P, [some 0], [(c4C, ⟨0, some (0, 10)⟩)], [some (0, 10)]⟩]
    (by decide) _ (by decide)

/-- A generic child node with no inputs, used twice as an input of `c5P`. -/
def c5C : Expr := .node 11 (.generic 1) []

/-- A parent node sharing the sub-expression `c5C` between its two sibling
inputs. -/
def c5P : Expr := .node 10 (.generic 0) [c5C, c5C]

/-- C5 counterexample: evaluating `c5P`, whose two sibling inputs share the
sub-expression `c5C`, invokes execute_node for `c5C` twice — once per
sibling, in left-to-right order — because the memo entry created by the
first sibling's evaluation is not visible while the second sibling is
evaluated.  The claim's "shared sub-expression evaluated at most once"
fails. -/
theorem C5_counterexample :
    trace_ops (execute_until_in_scope defaultHooks 3 c5P [] none) =
      [c5C, c5C, c5P] ∧
    (trace_ops (execute_until_in_scope defaultHooks 3 c5P [] none)).count c5C
      = 2 := by
  refine ⟨by decide, by decide⟩

/-- C5 (amended): sibling inputs are processed sequentially in left-to-right
source input order — their scopes and traces are concatenated in that
order — but every sibling is evaluated against the same scope (the scope as
of after pre_execute, before any sibling ran), so memo entries created by an
earlier sibling are not visible to a later one.  Formally the sibling
comprehension is equivalent to an independent monadic map of `eval_sibling`
over the zipped (input, context) pairs, each against the same scope `s`. -/
theorem C5_siblings_same_scope_left_to_right
    (r : Expr → Scope → Option TC → Except EvalError (Scope × Trace))
    (args : List Expr) (tcs : List (Option TC)) (s : Scope) :
    execute_arg_scopes r args tcs s =
      Except.map (fun rs => (rs.map Prod.fst, (rs.map Prod.snd).flatten))
        ((args.zip tcs).mapM fun p => eval_sibling r p.1 p.2 s) := by
  induction args generalizing tcs with
  | nil =>
    rw [show (List.zip ([] : List Expr) tcs) = [] from rfl, List.mapM_nil]
    rfl
  | cons a as ih =>
    cases tcs with
    | nil =>
      rw [show (List.zip (a :: as) ([] : List (Option TC))) = [] from rfl,
        List.mapM_nil]
      rfl
    | cons t ts =>
      rw [List.zip_cons_cons, List.mapM_cons]
      cases he : eval_sibling r a t s with
      | error err =>
        unfold execute_arg_scopes
        rw [he]
        rfl
      | ok pr =>
        obtain ⟨s1, tr1⟩ := pr
        have hrec := ih ts
        unfold execute_arg_scopes
        rw [he]
        cases hms : (as.zip ts).mapM (fun p => eval_sibling r p.1 p.2 s) with
        | error err =>
          rw [hms] at hrec
          rw [hrec]
          rfl
        | ok rs =>
          rw [hms] at hrec
          rw [hrec]
          rfl

/-- A generic leaf node with no inputs and no data bound anywhere. -/
def c6C : Expr := .node 21 (.generic 1) []

/-- A parent node whose only input is the data-less leaf `c6C`. -/
def c6P : Expr := .node 20 (.generic 0) [c6C]

/-- C6: the unbound-data guard of execute_until_in_scope is unreachable.
After the arity check, the sibling comprehension always yields exactly one
scope per computable input, so `not scopes and computable_args` can never be
true: no evaluation, at any fuel, over any scope, ever fails with the
unbound-data error.  Concretely, evaluating `c6P` — whose leaf `c6C` has no
data anywhere in scope or params — silently proceeds, handing execute_node
the gathered data instead of raising the unbound-data error. -/
theorem C6_unbound_check_unreachable :
    (∀ (fuel : Nat) (h : Hooks) (e : Expr) (s : Scope) (tc : Option TC),
       execute_until_in_scope h fuel e s tc ≠ .error .unbound) ∧
    execute_until_in_scope defaultHooks 3 c6P [] none =
      .ok (scope_item c6P 0 none,
           [⟨c6C, [], [], []⟩, ⟨c6P, [some 0], [(c6C, ⟨0, none⟩)], [none]⟩]) := by
  refine ⟨?_, by decide⟩
  intro fuel
  induction fuel with
  | zero => intro h e s tc; simp [execute_until_in_scope]
  | succ fuel ih =>
    intro h e s tc
    match e with
    | .rawScalar v => simp [execute_until_in_scope]
    | .rawList => simp [execute_until_in_scope]
    | .lit i v => simp [execute_until_in_scope]
    | .node i k ins =>
      intro hcontra
      simp only [execute_until_in_scope] at hcontra
      split at hcontra
      · rename_i err heq
        simp only [Except.error.injEq] at hcontra
        subst hcontra
        exact get_scope_ne_unbound _ _ _ heq
      · simp at hcontra
      · split at hcontra
        · rename_i err heq
          simp only [Except.error.injEq] at hcontra
          subst hcontra
          exact get_scope_ne_unbound _ _ _ heq
        · simp at hcontra
        · split at hcontra
          · simp at hcontra
          · rename_i harity
            split at hcontra
            · rename_i err heq
              simp only [Except.error.injEq] at hcontra
              subst hcontra
              exact execute_arg_scopes_ne_unbound
                (fun a s' t => ih h a s' t) _ _ _ heq
            · rename_i scopes traces heqargs
              split at hcontra
              · rename_i hguard
                have hlen := execute_arg_scopes_length _ _ _ _ scopes traces
                  heqargs
                simp only [Bool.and_eq_true, Bool.not_eq_true'] at hguard
                obtain ⟨hg1, hg2⟩ := hguard
                simp only [ne_eq, not_not] at harity
                rw [harity, min_self] at hlen
                cases scopes with
                | cons s0 ss => simp [List.isEmpty] at hg1
                | nil =>
                  cases hc : computable_inputs (Expr.node i k ins) with
                  | nil => rw [hc] at hg2; simp [List.isEmpty] at hg2
                  | cons a as =>
                    rw [hc] at hlen
                    simp at hlen
              · simp at hcontra

/-- A node with a single non-computable (raw list) input. -/
def c7N : Expr := .node 30 (.generic 0) [.rawList]

/-- C7 counterexample: the pyspark default compute_time_context returns one
context per input of the node, computable or not: on a node whose only input
is a non-computable raw list it returns a one-element list even though the
node has no computable inputs, contradicting "repeated once for each
computable input (and for no other inputs)". -/
theorem C7_counterexample :
    pyspark_compute_time_context_default c7N (some (0, 1)) = [some (0, 1)] ∧
    computable_inputs c7N = [] := by
  refine ⟨by decide, by decide⟩

/-- C7 (amended): the pandas default compute_time_context repeats the
parent's context once per computable input; the pyspark default repeats it
once per input, computable or not; and in the pandas evaluator, when a
context is set and the memo misses (before and after pre_execute), a
compute_time_context result whose length differs from the number of
computable inputs is a fatal arity error. -/
theorem C7_time_context_defaults_and_arity :
    (∀ (n : Expr) (tc : Option TC),
       compute_time_context_default n tc =
         List.replicate (computable_inputs n).length tc) ∧
    (∀ (n : Expr) (tc : Option TC),
       pyspark_compute_time_context_default n tc =
         List.replicate n.inputs.length tc) ∧
    (∀ (h : Hooks) (fuel : Nat) (i : Nat) (k : NodeKind) (ins : List Expr)
       (scope : Scope) (t : TC),
       get_scope scope (.node i k ins) (some t) = .ok none →
       get_scope (Scope.merge scope (h.pe (.node i k ins) scope (some t)))
         (.node i k ins) (some t) = .ok none →
       (h.ctc (.node i k ins) (computable_inputs (.node i k ins)).length
           (some t)).length ≠ (computable_inputs (.node i k ins)).length →
       execute_until_in_scope h (fuel + 1) (.node i k ins) scope (some t) =
         .error .arity) := by
  refine ⟨?_, ?_, ?_⟩
  · intro n tc
    simp [compute_time_context_default, computable_inputs,
      List.map_const']
  · intro n tc
    simp [pyspark_compute_time_context_default, List.map_const']
  · intro h fuel i k ins scope t hmiss1 hmiss2 hbad
    simp only [execute_until_in_scope, hmiss1, hmiss2]
    rw [if_pos hbad]

/-- The result of an evaluation, as execute_and_reset inspects it: a pandas
DataFrame (an index with a name, and named columns), a pandas Series (an
index and values), or a plain scalar.  Cells and index labels are modelled
as integers. -/
inductive PdResult where
  | scalar (v : Int)
  | series (index : List Int) (values : List Int)
  | frame (indexName : String) (index : List Int)
      (cols : List (String × List Int))
deriving DecidableEq

/-- Lookup of a named column in a DataFrame's column list. -/
def lookup_col (cols : List (String × List Int)) (nm : String) :
    Option (List Int) :=
  (cols.find? fun c => c.1 == nm).map fun c => c.2

/-- Port of the result normalization of execute_and_reset, with the value
returned by execute abstracted as `result` and the expression's declared
schema as its ordered column-name list.  A DataFrame goes through
`result.reset_index()` — which inserts the index as a frontmost column under
the index's name and renumbers rows densely from 0, failing if a column of
that name already exists — followed by `df.loc[:, schema.names]`, which
projects to exactly the schema's columns in schema order and fails on a
missing name.  A Series goes through `reset_index(drop=True)`, keeping its
values under a dense 0-based index.  Any other result is returned as is. -/
def execute_and_reset (result : PdResult) (schemaNames : List String) :
    Option PdResult :=
  match result with
  | .frame indexName index cols =>
    if cols.any fun c => c.1 == indexName then none
    else
      match schemaNames.mapM
          (fun nm => (lookup_col ((indexName, index) :: cols) nm).map
            fun d => (nm, d)) with
      | none => none
      | some sel =>
        some (.frame "" ((List.range index.length).map Int.ofNat) sel)
  | .series _ values =>
    some (.series ((List.range values.length).map Int.ofNat) values)
  | .scalar v => some (.scalar v)

/-- A column name with a present column is not the index name, when no
column carries the index name. -/
theorem lookup_col_ne_idx {cols : List (String × List Int)}
    {idxName nm : String} (hidx : ∀ c ∈ cols, c.1 ≠ idxName)
    (hsome : (lookup_col cols nm).isSome = true) : (idxName == nm) = false := by
  cases hfind : cols.find? (fun c => c.1 == nm) with
  | none => simp [lookup_col, hfind] at hsome
  | some c =>
    have hc := List.find?_some hfind
    have hmem := List.mem_of_find?_eq_some hfind
    have hne := hidx c hmem
    rw [beq_iff_eq] at hc
    rw [beq_eq_false_iff_ne]
    rw [← hc]
    exact fun hcon => hne hcon.symm

/-- When every schema name has a column and no column carries the index
name, the projection after reset_index finds exactly the original columns,
in schema order. -/
theorem mapM_lookup_all_found (cols : List (String × List Int))
    (idxName : String) (index : List Int)
    (hidx : ∀ c ∈ cols, c.1 ≠ idxName) :
    ∀ names : List String,
      (∀ nm ∈ names, (lookup_col cols nm).isSome = true) →
      names.mapM (fun nm => (lookup_col ((idxName, index) :: cols) nm).map
          fun d => (nm, d)) =
        some (names.map fun nm => (nm, (lookup_col cols nm).getD [])) := by
  intro names
  induction names with
  | nil => intro _; rfl
  | cons nm rest ih =>
    intro hall
    have hsome := hall nm (by simp)
    have hne := lookup_col_ne_idx hidx hsome
    have hstep : lookup_col ((idxName, index) :: cols) nm =
        lookup_col cols nm := by
      simp [lookup_col, List.find?_cons, hne]
    obtain ⟨d, hd⟩ := Option.isSome_iff_exists.mp hsome
    rw [List.mapM_cons, hstep, hd]
    have hrest := ih fun x hx => hall x (by simp [hx])
    rw [hrest]
    simp [hd]

/-- C9: execute_and_reset leaves a scalar result exactly as execute produced
it; reindexes a Series result densely from 0 keeping its values; and, for a
DataFrame result whose columns include every declared schema column (and
none clashing with the index name, which would already fail inside
reset_index), returns the same column data reindexed densely from 0 and
projected to exactly the schema's column order. -/
theorem C9_execute_and_reset_normalizes (idxName : String)
    (index : List Int) (cols : List (String × List Int))
    (schemaNames : List String)
    (hidx : ∀ c ∈ cols, c.1 ≠ idxName)
    (hsub : ∀ nm ∈ schemaNames, (lookup_col cols nm).isSome = true) :
    execute_and_reset (.frame idxName index cols) schemaNames =
      some (.frame "" ((List.range index.length).map Int.ofNat)
        (schemaNames.map fun nm => (nm, (lookup_col cols nm).getD []))) ∧
    (∀ (idx vals : List Int) (sn : List String),
       execute_and_reset (.series idx vals) sn =
         some (.series ((List.range vals.length).map Int.ofNat) vals)) ∧
    (∀ (v : Int) (sn : List String),
       execute_and_reset (.scalar v) sn = some (.scalar v)) := by
  refine ⟨?_, fun idx vals sn => rfl, fun v sn => rfl⟩
  have hany : (cols.any fun c => c.1 == idxName) = false := by
    rw [List.any_eq_false]
    intro c hc
    simp [beq_eq_false_iff_ne]
    exact hidx c hc
  simp only [execute_and_reset, hany, Bool.false_eq_true, if_false]
  rw [mapM_lookup_all_found cols idxName index hidx schemaNames hsub]

/-- C9 witness: a two-column frame indexed by a named index, projected to
schema order [b, a], is densely reindexed and reordered; series and scalar
results normalize as stated. -/
theorem C9_witness :
    execute_and_reset (.frame "idx" [5, 9] [("a", [1, 2]), ("b", [3, 4])])
        ["b", "a"] =
      some (.frame "" [0, 1] [("b", [3, 4]), ("a", [1, 2])]) ∧
    execute_and_reset (.series [7, 8] [1, 2]) ["x"] =
      some (.series [0, 1] [1, 2]) ∧
    execute_and_reset (.scalar 42) [] = some (.scalar 42) :=
  ⟨by
    have h := C9_execute_and_reset_normalizes "idx" [5, 9]
      [("a", [1, 2]), ("b", [3, 4])] ["b", "a"] (by decide) (by decide)
    rw [h.1]
    rfl,
   by
    have h := C9_execute_and_reset_normalizes "idx" [5, 9]
      [("a", [1, 2]), ("b", [3, 4])] ["b", "a"] (by decide) (by decide)
    exact h.2.1 [7, 8] [1, 2] ["x"],
   by
    have h := C9_execute_and_reset_normalizes "idx" [5, 9]
      [("a", [1, 2]), ("b", [3, 4])] ["b", "a"] (by decide) (by decide)
    exact h.2.2 42 []⟩

/-- Port of _read_csv as used by csv_pre_execute_selection, restricted to
what the hook observes: with usecols=None all of the file's columns are
read; with a usecols list only the file's columns whose names occur in the
list are read (in file order). -/
def read_csv_model (file : List (String × List Int))
    (usecols : Option (List String)) : List (String × List Int) :=
  match usecols with
  | none => file
  | some cs => file.filter fun c => decide (c.1 ∈ cs)

/-- Port of csv_pre_execute_selection for one physical table of the
selection: a table already in scope contributes nothing; otherwise, when the
node has selections, their names form usecols, which is dropped again (read
everything) unless every requested name occurs in the file's header
(`len(pd.Index(usecols) & header.columns) != len(usecols)`); the scope
entry made for the table holds the data so read under the current
timecontext. -/
def csv_pre_execute_selection (scope_tables : List Nat) (table_id : Nat)
    (selections : List String) (file : List (String × List Int))
    (timecontext : Option TC) :
    List (Nat × (List (String × List Int)) × Option TC) :=
  if table_id ∈ scope_tables then []
  else
    let usecols : Option (List String) :=
      if selections.isEmpty then none
      else if (selections.filter fun s =>
            decide (s ∈ file.map Prod.fst)).length ≠ selections.length then
        none
      else some selections
    [(table_id, read_csv_model file usecols, timecontext)]

/-- C10: for a selection over a physical table not already in scope, when
the node has selections and every requested column name occurs in the
file's header, the scope entry holds exactly the file's columns whose names
were requested — only requested columns, and all of them; when some
requested name is absent from the header, every column of the file is read
(no pruning). -/
theorem C10_csv_column_pruning (scope_tables : List Nat) (table_id : Nat)
    (selections : List String) (file : List (String × List Int))
    (tc : Option TC) (hnot : table_id ∉ scope_tables)
    (hne : selections ≠ []) :
    ((∀ s ∈ selections, s ∈ file.map Prod.fst) →
       csv_pre_execute_selection scope_tables table_id selections file tc =
         [(table_id, file.filter fun c => decide (c.1 ∈ selections), tc)] ∧
       (∀ c ∈ file.filter fun c => decide (c.1 ∈ selections),
          c.1 ∈ selections) ∧
       (∀ s ∈ selections,
          s ∈ (file.filter fun c => decide (c.1 ∈ selections)).map
            Prod.fst)) ∧
    ((∃ s ∈ selections, s ∉ file.map Prod.fst) →
       csv_pre_execute_selection scope_tables table_id selections file tc =
         [(table_id, file, tc)]) := by
  have hempty : selections.isEmpty = false := by
    cases selections with
    | nil => exact absurd rfl hne
    | cons a as => rfl
  constructor
  · intro hall
    have hflen : (selections.filter fun s =>
        decide (s ∈ file.map Prod.fst)).length = selections.length := by
      rw [List.filter_length_eq_length]
      intro a ha
      exact decide_eq_true (hall a ha)
    refine ⟨?_, ?_, ?_⟩
    · unfold csv_pre_execute_selection
      rw [if_neg hnot, hempty]
      simp only [Bool.false_eq_true, if_false, hflen, ne_eq,
        not_true_eq_false]
      rfl
    · intro c hc
      have := (List.mem_filter.mp hc).2
      exact of_decide_eq_true this
    · intro s hs
      obtain ⟨c, hcmem, hcs⟩ := List.mem_map.mp (hall s hs)
      refine List.mem_map.mpr ⟨c, ?_, hcs⟩
      refine List.mem_filter.mpr ⟨hcmem, ?_⟩
      rw [hcs]
      exact decide_eq_true hs
  · intro hmissing
    obtain ⟨s0, hs0, hs0n⟩ := hmissing
    have hflen : (selections.filter fun s =>
        decide (s ∈ file.map Prod.fst)).length ≠ selections.length := by
      rw [Ne, List.filter_length_eq_length]
      intro hcon
      exact hs0n (of_decide_eq_true (hcon s0 hs0))
    unfold csv_pre_execute_selection
    rw [if_neg hnot, hempty]
    simp only [Bool.false_eq_true, if_false]
    rw [if_pos hflen]
    rfl

/-- C10 witness: with header {a, b, c} and selections [a, b] the entry holds
only columns a and b; selecting the absent column d reads all three
columns. -/
theorem C10_witness :
    csv_pre_execute_selection [] 0 ["a", "b"]
        [("a", [1]), ("b", [2]), ("c", [3])] none =
      [(0, [("a", [1]), ("b", [2])], none)] ∧
    csv_pre_execute_selection [] 0 ["a", "d"]
        [("a", [1]), ("b", [2]), ("c", [3])] none =
      [(0, [("a", [1]), ("b", [2]), ("c", [3])], none)] := by
  constructor
  · have h := (C10_csv_column_pruning [] 0 ["a", "b"]
      [("a", [1]), ("b", [2]), ("c", [3])] none (by decide)
      (by decide)).1 (by decide)
    rw [h.1]
    rfl
  · exact (C10_csv_column_pruning [] 0 ["a", "d"]
      [("a", [1]), ("b", [2]), ("c", [3])] none (by decide)
      (by decide)).2 ⟨"d", by decide, by decide⟩

end IbisSpec
